import Mathlib

/-!
# Verification of the `rank_biased_centroids` crate (Rank-Biased Centroids rank fusion)

Shallow embedding of `src/lib.rs` and `src/state.rs`.

Modelling conventions:
* `f64` values are modelled by the type `F` below: a finite value carries an exact
  rational; the special values `+inf`, `-inf` and `NaN` are explicit constructors.
  Arithmetic on finite values is exact rational arithmetic (rounding and
  overflow of `f64` are abstracted away); the IEEE rules for the special values
  and for comparisons involving `NaN` are modelled faithfully, since the
  library's validation code branches on them.
* Rust's `HashMap<Item, f64>` is modelled by an association list kept in
  insertion order; this captures the map's contents exactly.  The *iteration*
  order of a Rust `std::collections::HashMap` is unspecified (randomly seeded),
  so wherever the iteration order is observable (the relative order of
  equal-score items after the stable sort in `into_result`) theorems quantify
  over an arbitrary permutation of the entries instead of fixing the insertion
  order.
* A Rust panic (`expect`) is modelled by `Option`: `none` is the panic.
* `Result<T, RbcError>` is modelled by `Except RbcError`.
-/

/-- Model of `f64`: exact finite rationals plus the IEEE special values. -/
inductive F where
  | fin (q : ℚ)
  | posInf
  | negInf
  | nan
deriving DecidableEq, Repr

namespace F

/-- `f64::is_nan`. -/
def isNan : F → Bool
  | .nan => true
  | _ => false

/-- `f64::is_infinite`. -/
def isInfinite : F → Bool
  | .posInf => true
  | .negInf => true
  | _ => false

/-- IEEE `<=` (`PartialOrd` on `f64`): any comparison with NaN is false. -/
def le : F → F → Bool
  | .nan, _ => false
  | _, .nan => false
  | .negInf, _ => true
  | _, .posInf => true
  | .posInf, _ => false
  | _, .negInf => false
  | .fin a, .fin b => decide (a ≤ b)

/-- IEEE `<` (`PartialOrd` on `f64`): any comparison with NaN is false. -/
def lt : F → F → Bool
  | .nan, _ => false
  | _, .nan => false
  | .posInf, _ => false
  | _, .negInf => false
  | .negInf, _ => true
  | _, .posInf => true
  | .fin a, .fin b => decide (a < b)

/-- IEEE addition (finite addition exact; overflow abstracted). -/
def add : F → F → F
  | .nan, _ => .nan
  | _, .nan => .nan
  | .posInf, .negInf => .nan
  | .negInf, .posInf => .nan
  | .posInf, _ => .posInf
  | _, .posInf => .posInf
  | .negInf, _ => .negInf
  | _, .negInf => .negInf
  | .fin a, .fin b => .fin (a + b)

/-- IEEE multiplication (finite multiplication exact; overflow/underflow abstracted). -/
def mul : F → F → F
  | .nan, _ => .nan
  | _, .nan => .nan
  | .posInf, .posInf => .posInf
  | .posInf, .negInf => .negInf
  | .negInf, .posInf => .negInf
  | .negInf, .negInf => .posInf
  | .posInf, .fin b => if 0 < b then .posInf else if b < 0 then .negInf else .nan
  | .fin a, .posInf => if 0 < a then .posInf else if a < 0 then .negInf else .nan
  | .negInf, .fin b => if 0 < b then .negInf else if b < 0 then .posInf else .nan
  | .fin a, .negInf => if 0 < a then .negInf else if a < 0 then .posInf else .nan
  | .fin a, .fin b => .fin (a * b)

/-- IEEE negation. -/
def neg : F → F
  | .fin q => .fin (-q)
  | .posInf => .negInf
  | .negInf => .posInf
  | .nan => .nan

/-- IEEE subtraction, as `a + (-b)`. -/
def sub (a b : F) : F := a.add b.neg

/-- `f64::total_cmp` as a boolean `≤` relation: the IEEE `totalOrder`
ordering `-inf < finite < +inf < NaN` (our single `nan` plays the role of
`+NaN`; a negatively-signed NaN never arises in this library). -/
def totalLe : F → F → Bool
  | .negInf, _ => true
  | _, .negInf => false
  | .fin a, .fin b => decide (a ≤ b)
  | .fin _, _ => true
  | _, .fin _ => false
  | .posInf, _ => true
  | .nan, .posInf => false
  | .nan, .nan => true

end F

/-! ## Embedding of `src/state.rs` -/

/-- `RbcError` from `src/lib.rs` (the source spells it `InvalidPersistance`). -/
inductive RbcError where
  | InvalidPersistance
  | InvalidRunWeights
deriving DecidableEq, Repr

/-- `RbcState` from `src/state.rs`: precomputed per-rank weights, the
accumulated item weights (a `HashMap` in Rust, modelled by an association
list in insertion order), and the persistence parameter. -/
structure RbcState (Item : Type) where
  weights : List F
  item_weights : List (Item × F)
  persistence : F
deriving Repr

/-- `VALID_P_RANGE.contains(&persistence)` from `src/state.rs` line 19:
`Range::contains` is `start <= p && p < end` under IEEE comparison. -/
def persistenceOk (p : F) : Bool := F.le (F.fin 0) p && F.lt p (F.fin 1)

/-- The loop body of `with_persistence` (`src/state.rs` lines 22-29): starting
from `w = 1.0 - p`, emit `n` weights, multiplying by `p` after each. -/
def initWeightsGo (p : F) : Nat → F → List F
  | 0, _ => []
  | n + 1, w => w :: initWeightsGo p n (w.mul p)

/-- The precomputed weight vector of `with_persistence`: 10000 entries of the
geometric schedule starting at `1.0 - p`. -/
def initWeights (p : F) : List F := initWeightsGo p 10000 ((F.fin 1).sub p)

/-- `RbcState::with_persistence` (`src/state.rs` lines 18-35). -/
def withPersistence (Item : Type) (p : F) : Except RbcError (RbcState Item) :=
  if persistenceOk p then
    Except.ok { weights := initWeights p, item_weights := [], persistence := p }
  else
    Except.error RbcError.InvalidPersistance

/-- The `while self.weights.len() <= rank` loop of `update`
(`src/state.rs` lines 39-43): repeatedly push `last * p`.  `none` models the
`expect("can't fail")` panic when the weight vector is empty. -/
def extendWeights (p : F) (rank : Nat) (ws : List F) : Option (List F) :=
  if ws.length ≤ rank then
    match ws.getLast? with
    | none => none
    | some w => extendWeights p rank (ws ++ [w.mul p])
  else
    some ws
termination_by rank + 1 - ws.length
decreasing_by simp_all; omega

/-- The `entry(item).and_modify(|e| *e += weight).or_insert(weight)` update of
the accumulator (`src/state.rs` lines 46-49), on the insertion-ordered
association-list model of the `HashMap`. -/
def addWeight {Item : Type} [DecidableEq Item] :
    List (Item × F) → Item → F → List (Item × F)
  | [], x, w => [(x, w)]
  | (a, v) :: m, x, w =>
    if x = a then (a, v.add w) :: m else (a, v) :: addWeight m x w

/-- `RbcState::update` (`src/state.rs` lines 38-50).  `none` models a panic in
either `expect` (weight vector empty, or rank lookup failing). -/
def RbcState.update {Item : Type} [DecidableEq Item] (st : RbcState Item)
    (rank : Nat) (item : Item) (run_weight : Option F) :
    Option (RbcState Item) := do
  let ws ← extendWeights st.persistence rank st.weights
  let w ← ws[rank]?
  let weight := match run_weight with
    | some rw => w.mul rw
    | none => w
  pure { st with weights := ws, item_weights := addWeight st.item_weights item weight }

/-- The sort of `into_result` (`src/state.rs` line 55):
`items.sort_by(|a, b| b.1.total_cmp(&a.1))` — a stable sort, descending by
score under the `total_cmp` total order. -/
def sortEntries {Item : Type} (l : List (Item × F)) : List (Item × F) :=
  l.mergeSort (fun a b => F.totalLe b.2 a.2)

/-- `RbcState::into_result` (`src/state.rs` lines 53-57), applied to one
iteration order of the `HashMap` entries.  The canonical pipeline uses the
insertion order; theorems about tie order quantify over permutations. -/
def RbcState.intoResult {Item : Type} (st : RbcState Item) : List (Item × F) :=
  sortEntries st.item_weights

/-! ## Embedding of `src/lib.rs` -/

/-- The inner loop of `rbc`/`rbc_with_weights`: fold one ranked list through
`update`, enumerating items from the given starting rank (`enumerate` starts
at 0).  `none` propagates a panic. -/
def processListFrom {Item : Type} [DecidableEq Item] (st : RbcState Item)
    (rw : Option F) : Nat → List Item → Option (RbcState Item)
  | _, [] => some st
  | rank, item :: rest => do
    let st' ← st.update rank item rw
    processListFrom st' rw (rank + 1) rest

/-- Fold all ranked lists through the state with no run weights
(the loop of `rbc`, `src/lib.rs` lines 265-270). -/
def processAll {Item : Type} [DecidableEq Item] (st : RbcState Item) :
    List (List Item) → Option (RbcState Item)
  | [] => some st
  | l :: ls => do
    let st' ← processListFrom st none 0 l
    processAll st' ls

/-- `rbc` (`src/lib.rs` lines 253-274).  The outer `Except` is the returned
`Result`; the inner `Option` models reaching a panic (`none`) versus returning
normally (`some`). -/
def rbc {Item : Type} [DecidableEq Item] (input_rankings : List (List Item))
    (p : F) : Except RbcError (Option (List (Item × F))) := do
  let st ← withPersistence Item p
  pure ((processAll st input_rankings).map RbcState.intoResult)

/-- The loop of `rbc_with_weights` (`src/lib.rs` lines 317-332): for each
ranked list take the next run weight, rejecting a missing, infinite or NaN
weight; after the loop the source checks `ranked_list_iter.next().is_some()`,
which is always false for a list-backed (fused) iterator because the `for`
loop already drained it, so leftover run weights are accepted. -/
def rbcWithWeightsGo {Item : Type} [DecidableEq Item] (st : RbcState Item) :
    List (List Item) → List F → Except RbcError (Option (RbcState Item))
  | [], _ => Except.ok (some st)
  | _ :: _, [] => Except.error RbcError.InvalidRunWeights
  | l :: ls, rw :: rws =>
    if rw.isInfinite then Except.error RbcError.InvalidRunWeights
    else if rw.isNan then Except.error RbcError.InvalidRunWeights
    else
      match processListFrom st (some rw) 0 l with
      | none => Except.ok none
      | some st' => rbcWithWeightsGo st' ls rws

/-- `rbc_with_weights` (`src/lib.rs` lines 302-336). -/
def rbcWithWeights {Item : Type} [DecidableEq Item]
    (input_rankings : List (List Item)) (run_weights : List F) (p : F) :
    Except RbcError (Option (List (Item × F))) := do
  let st ← withPersistence Item p
  let st' ← rbcWithWeightsGo st input_rankings run_weights
  pure (st'.map RbcState.intoResult)

/-! ## Derived definitions used to state and prove the claims -/

/-- The schedule weight the engine uses at a given rank: what `update` reads
after lazily extending the precomputed vector (`src/state.rs` lines 39-44),
starting from the freshly initialized vector. -/
def weightAt (p : F) (r : Nat) : Option F :=
  (extendWeights p r (initWeights p)).bind fun ws => ws[r]?

/-- The contribution `update` adds for one observation
(`src/state.rs` lines 44-45), given that the schedule value at `rank` is the
geometric weight `(1-q) * q^rank`. -/
def contribF (q : ℚ) (rank : Nat) (rw : Option F) : F :=
  match rw with
  | none => F.fin ((1 - q) * q ^ rank)
  | some r => (F.fin ((1 - q) * q ^ rank)).mul r

/-- Accumulator contents after folding one ranked list starting at `rank`,
mirroring `processListFrom` on the map alone. -/
def accListFrom {Item : Type} [DecidableEq Item] (q : ℚ) (rw : Option F) :
    Nat → List Item → List (Item × F) → List (Item × F)
  | _, [], m => m
  | rank, x :: xs, m => accListFrom q rw (rank + 1) xs (addWeight m x (contribF q rank rw))

/-- Accumulator contents after folding all lists of the unweighted entry point. -/
def accRuns {Item : Type} [DecidableEq Item] (q : ℚ) :
    List (List Item) → List (Item × F) → List (Item × F)
  | [], m => m
  | l :: ls, m => accRuns q ls (accListFrom q none 0 l m)

/-- Accumulator contents after folding all (list, run weight) pairs of the
weighted entry point. -/
def accRunsW {Item : Type} [DecidableEq Item] (q : ℚ) :
    List (List Item × F) → List (Item × F) → List (Item × F)
  | [], m => m
  | (l, rw) :: ps, m => accRunsW q ps (accListFrom q (some rw) 0 l m)

/-- The condition under which the run-weight loop of `rbc_with_weights`
reaches the end without an error: enough weights for every list, and every
*consumed* weight finite.  (Weights beyond the number of lists are never
examined by the source.) -/
def runWeightsOk (n : Nat) (rws : List F) : Bool :=
  decide (n ≤ rws.length) && (rws.take n).all fun w => !w.isInfinite && !w.isNan

/-- Association-list lookup, mirroring `HashMap` key lookup. -/
def lookupW {Item : Type} [DecidableEq Item] : List (Item × F) → Item → Option F
  | [], _ => none
  | (a, v) :: m, x => if x = a then some v else lookupW m x

/-- The rational score stored for an item (`0` when absent or non-finite). -/
def scoreQ {Item : Type} [DecidableEq Item] (m : List (Item × F)) (y : Item) : ℚ :=
  match lookupW m y with
  | some (F.fin s) => s
  | _ => 0

/-- All accumulator values are finite. -/
def finVals {Item : Type} (m : List (Item × F)) : Prop :=
  ∀ e ∈ m, ∃ c : ℚ, e.2 = F.fin c

/-- A run weight as used by `update`: absent (defaulting factor 1) or finite. -/
def FinOpt (rw : Option F) : Prop :=
  rw = none ∨ ∃ c : ℚ, rw = some (F.fin c)

/-- The scaling factor a run-weight option denotes: 1 when absent. -/
def cval : Option F → ℚ
  | none => 1
  | some (F.fin c) => c
  | some _ => 0

/-- The specification's per-list score formula: the sum, over every occurrence
of `x` at zero-based rank `r` (counted from `rank`), of `(1-q) * q^r`
multiplied by the run weight `c`. -/
def occScoreFrom {Item : Type} [DecidableEq Item] (q c : ℚ) (x : Item) :
    Nat → List Item → ℚ
  | _, [] => 0
  | rank, a :: xs =>
    (if x = a then (1 - q) * q ^ rank * c else 0) + occScoreFrom q c x (rank + 1) xs

/-- The specification's score contributed by one list (ranks from 0). -/
def occScore {Item : Type} [DecidableEq Item] (q c : ℚ) (x : Item) (l : List Item) : ℚ :=
  occScoreFrom q c x 0 l

/-- The specification's total score of an item over all (list, run weight)
runs: sums the per-occurrence geometric contributions. -/
def totalScore {Item : Type} [DecidableEq Item] (q : ℚ)
    (runs : List (List Item × ℚ)) (x : Item) : ℚ :=
  (runs.map fun lr => occScore q lr.2 x lr.1).sum

/-- A sequence of direct `update` calls folded through the state (used to state
that no panic is reachable from a validated state). -/
def applyUpdates {Item : Type} [DecidableEq Item] (st : RbcState Item) :
    List (Nat × Item × Option F) → Option (RbcState Item)
  | [] => some st
  | (r, x, rw) :: us => (st.update r x rw).bind fun st' => applyUpdates st' us

/-- Invariant of a validated engine state with persistence `q`: the stored
persistence is the finite value `q`, and the weight vector is a nonempty
prefix of the geometric schedule `(1-q) * q^i`. -/
def GoodState {Item : Type} (q : ℚ) (st : RbcState Item) : Prop :=
  st.persistence = F.fin q ∧ st.weights ≠ [] ∧
    ∀ i, i < st.weights.length → st.weights[i]? = some (F.fin ((1 - q) * q ^ i))

/-! ## Properties of the float model -/

theorem F.totalLe_trans (a b c : F) :
    F.totalLe a b → F.totalLe b c → F.totalLe a c := by
  cases a <;> cases b <;> cases c <;>
    simp only [F.totalLe, decide_eq_true_eq] <;>
    intro h h' <;> first
    | trivial
    | exact le_trans h h'

theorem F.totalLe_total (a b : F) : F.totalLe a b || F.totalLe b a := by
  cases a <;> cases b <;> simp [F.totalLe, le_total]

theorem F.mul_one_right (a : F) : a.mul (F.fin 1) = a := by
  cases a <;> simp [F.mul]

/-! ## The weight schedule -/

theorem initWeightsGo_length (p : F) (n : Nat) (w : F) :
    (initWeightsGo p n w).length = n := by
  induction n generalizing w with
  | zero => rfl
  | succ n ih => simp [initWeightsGo, ih]

theorem initWeightsGo_getElem? (q : ℚ) (n : Nat) (w : ℚ) (i : Nat) (h : i < n) :
    (initWeightsGo (F.fin q) n (F.fin w))[i]? = some (F.fin (w * q ^ i)) := by
  induction n generalizing w i with
  | zero => omega
  | succ n ih =>
    cases i with
    | zero => simp [initWeightsGo]
    | succ i =>
      have : (F.fin w).mul (F.fin q) = F.fin (w * q) := rfl
      simp only [initWeightsGo, this, List.getElem?_cons_succ]
      rw [ih (w * q) i (by omega)]
      ring_nf

theorem fin_sub_fin (a b : ℚ) : (F.fin a).sub (F.fin b) = F.fin (a - b) := by
  simp [F.sub, F.add, F.neg, sub_eq_add_neg]

theorem initWeights_length (p : F) : (initWeights p).length = 10000 := by
  simp [initWeights, initWeightsGo_length]

theorem initWeights_getElem? (q : ℚ) (i : Nat) (h : i < 10000) :
    (initWeights (F.fin q))[i]? = some (F.fin ((1 - q) * q ^ i)) := by
  rw [initWeights, fin_sub_fin]
  exact initWeightsGo_getElem? q 10000 (1 - q) i h

theorem initWeights_ne_nil (p : F) : initWeights p ≠ [] := by
  intro h
  have := initWeights_length p
  rw [h] at this
  simp at this

/-- The lazy extension loop succeeds on a geometric prefix and yields a longer
geometric prefix covering the requested rank. -/
theorem extendWeights_spec (q : ℚ) (rank : Nat) (ws : List F) (hne : ws ≠ [])
    (hgood : ∀ i, i < ws.length → ws[i]? = some (F.fin ((1 - q) * q ^ i))) :
    ∃ ws', extendWeights (F.fin q) rank ws = some ws' ∧ rank < ws'.length ∧
      ws' ≠ [] ∧ ∀ i, i < ws'.length → ws'[i]? = some (F.fin ((1 - q) * q ^ i)) := by
  by_cases hlen : ws.length ≤ rank
  · -- the loop runs: the last element exists and extends the prefix
    have hlast : ws.getLast? = some (F.fin ((1 - q) * q ^ (ws.length - 1))) := by
      rw [List.getLast?_eq_getElem?]
      exact hgood _ (by cases ws <;> simp_all)
    have hmul : (F.fin ((1 - q) * q ^ (ws.length - 1))).mul (F.fin q) =
        F.fin ((1 - q) * q ^ ws.length) := by
      have h1 : 1 ≤ ws.length := by cases ws <;> simp_all
      have : (1 - q) * q ^ (ws.length - 1) * q = (1 - q) * q ^ ws.length := by
        rw [mul_assoc, ← pow_succ]
        congr 2
        omega
      simp [F.mul, this]
    have hgood' : ∀ i, i < (ws ++ [F.fin ((1 - q) * q ^ ws.length)]).length →
        (ws ++ [F.fin ((1 - q) * q ^ ws.length)])[i]? =
          some (F.fin ((1 - q) * q ^ i)) := by
      intro i hi
      simp only [List.length_append, List.length_cons, List.length_nil] at hi
      by_cases hcase : i < ws.length
      · rw [List.getElem?_append_left hcase]
        exact hgood i hcase
      · have : i = ws.length := by omega
        subst this
        exact List.getElem?_concat_length ws _
    have hrec := extendWeights_spec q rank (ws ++ [F.fin ((1 - q) * q ^ ws.length)])
      (by simp) hgood'
    obtain ⟨ws', heq, hlt, hne', hg⟩ := hrec
    refine ⟨ws', ?_, hlt, hne', hg⟩
    rw [extendWeights, if_pos hlen, hlast]
    show extendWeights (F.fin q) rank
      (ws ++ [(F.fin ((1 - q) * q ^ (ws.length - 1))).mul (F.fin q)]) = some ws'
    rw [hmul]
    exact heq
  · exact ⟨ws, by rw [extendWeights, if_neg hlen], by omega, hne, hgood⟩
termination_by rank + 1 - ws.length
decreasing_by simp; omega

/-! ## The validated-state invariant through the pipeline -/

theorem persistenceOk_iff (p : F) :
    persistenceOk p = true ↔ ∃ q : ℚ, p = F.fin q ∧ 0 ≤ q ∧ q < 1 := by
  cases p <;> simp [persistenceOk, F.le, F.lt]

theorem initState_good (Item : Type) (q : ℚ) :
    GoodState q (⟨initWeights (F.fin q), [], F.fin q⟩ : RbcState Item) := by
  refine ⟨rfl, initWeights_ne_nil _, fun i hi => ?_⟩
  rw [initWeights_length] at hi
  exact initWeights_getElem? q i hi

theorem withPersistence_ok {Item : Type} (q : ℚ) (h0 : 0 ≤ q) (h1 : q < 1) :
    withPersistence Item (F.fin q) =
      Except.ok ⟨initWeights (F.fin q), [], F.fin q⟩ := by
  rw [withPersistence, if_pos]
  exact (persistenceOk_iff _).2 ⟨q, rfl, h0, h1⟩

theorem withPersistence_err {Item : Type} (p : F) (h : persistenceOk p = false) :
    withPersistence Item p = Except.error RbcError.InvalidPersistance := by
  rw [withPersistence, if_neg]
  simp [h]

theorem RbcState.update_spec {Item : Type} [DecidableEq Item] (q : ℚ)
    (st : RbcState Item) (rank : Nat) (item : Item) (rw : Option F)
    (h : GoodState q st) :
    ∃ st', st.update rank item rw = some st' ∧ GoodState q st' ∧
      st'.item_weights = addWeight st.item_weights item (contribF q rank rw) := by
  obtain ⟨hp, hne, hgood⟩ := h
  obtain ⟨ws', heq, hlt, hne', hg⟩ := extendWeights_spec q rank st.weights hne hgood
  have hw : ws'[rank]? = some (F.fin ((1 - q) * q ^ rank)) := hg rank hlt
  refine ⟨⟨ws', addWeight st.item_weights item (contribF q rank rw), F.fin q⟩, ?_,
      ⟨rfl, hne', hg⟩, rfl⟩
  rw [RbcState.update, hp, heq]
  simp only [Option.bind_eq_bind, Option.some_bind, hw]
  cases rw <;> rfl

theorem processListFrom_spec {Item : Type} [DecidableEq Item] (q : ℚ)
    (rw : Option F) (l : List Item) (st : RbcState Item) (rank : Nat)
    (h : GoodState q st) :
    ∃ st', processListFrom st rw rank l = some st' ∧ GoodState q st' ∧
      st'.item_weights = accListFrom q rw rank l st.item_weights := by
  induction l generalizing st rank with
  | nil => exact ⟨st, rfl, h, rfl⟩
  | cons a xs ih =>
    obtain ⟨st1, h1, hg1, hm1⟩ := RbcState.update_spec q st rank a rw h
    obtain ⟨st2, h2, hg2, hm2⟩ := ih st1 (rank + 1) hg1
    refine ⟨st2, ?_, hg2, ?_⟩
    · simp [processListFrom, h1, h2]
    · rw [hm2, hm1, accListFrom]

theorem processAll_spec {Item : Type} [DecidableEq Item] (q : ℚ)
    (lists : List (List Item)) (st : RbcState Item) (h : GoodState q st) :
    ∃ st', processAll st lists = some st' ∧ GoodState q st' ∧
      st'.item_weights = accRuns q lists st.item_weights := by
  induction lists generalizing st with
  | nil => exact ⟨st, rfl, h, rfl⟩
  | cons l ls ih =>
    obtain ⟨st1, h1, hg1, hm1⟩ := processListFrom_spec q none l st 0 h
    obtain ⟨st2, h2, hg2, hm2⟩ := ih st1 hg1
    refine ⟨st2, ?_, hg2, ?_⟩
    · simp [processAll, h1, h2]
    · rw [hm2, hm1, accRuns]

/-- Full characterization of `rbc` on a valid persistence: it succeeds (no
panic) and returns the stable descending sort of the accumulated map. -/
theorem rbc_eq {Item : Type} [DecidableEq Item] (lists : List (List Item))
    (q : ℚ) (h0 : 0 ≤ q) (h1 : q < 1) :
    rbc lists (F.fin q) = Except.ok (some (sortEntries (accRuns q lists []))) := by
  obtain ⟨st', h', _, hm⟩ := processAll_spec q lists _ (initState_good Item q)
  rw [rbc, withPersistence_ok q h0 h1]
  show Except.ok ((processAll _ lists).map _) = _
  rw [h']
  simp only [Option.map_some', RbcState.intoResult, hm]

/-! ## The weighted entry point's run-weight loop -/

theorem F.finite_cases (w : F) (h1 : w.isInfinite = false) (h2 : w.isNan = false) :
    ∃ c : ℚ, w = F.fin c := by
  cases w <;> simp_all [F.isInfinite, F.isNan]

theorem runWeightsOk_zero (rws : List F) : runWeightsOk 0 rws = true := by
  simp [runWeightsOk]

theorem runWeightsOk_cons_iff (n : Nat) (rw : F) (rws : List F) :
    runWeightsOk (n + 1) (rw :: rws) = true ↔
      (rw.isInfinite = false ∧ rw.isNan = false ∧ runWeightsOk n rws = true) := by
  simp only [runWeightsOk, List.take_succ_cons, List.all_cons, List.length_cons,
    Bool.and_eq_true, decide_eq_true_eq, Bool.not_eq_true', Nat.add_le_add_iff_right]
  tauto

theorem rbcWithWeightsGo_err {Item : Type} [DecidableEq Item] (q : ℚ)
    (lists : List (List Item)) (rws : List F) (st : RbcState Item)
    (h : GoodState q st) (hbad : runWeightsOk lists.length rws = false) :
    rbcWithWeightsGo st lists rws = Except.error RbcError.InvalidRunWeights := by
  induction lists generalizing st rws with
  | nil => simp [runWeightsOk] at hbad
  | cons l ls ih =>
    cases rws with
    | nil => rfl
    | cons rw rws' =>
      by_cases hinf : rw.isInfinite = true
      · rw [rbcWithWeightsGo, if_pos hinf]
      · by_cases hnan : rw.isNan = true
        · rw [rbcWithWeightsGo, if_neg (by simp [hinf]), if_pos hnan]
        · have hrest : runWeightsOk ls.length rws' = false := by
            by_contra hc
            have := (runWeightsOk_cons_iff ls.length rw rws').2
              ⟨by simp_all, by simp_all, by simp_all⟩
            simp [List.length_cons] at this hbad
            rw [this] at hbad
            cases hbad
          obtain ⟨st1, h1, hg1, _⟩ := processListFrom_spec q (some rw) l st 0 h
          rw [rbcWithWeightsGo, if_neg (by simp [hinf]), if_neg (by simp [hnan]), h1]
          exact ih rws' st1 hg1 hrest

theorem rbcWithWeightsGo_ok {Item : Type} [DecidableEq Item] (q : ℚ)
    (lists : List (List Item)) (rws : List F) (st : RbcState Item)
    (h : GoodState q st) (hok : runWeightsOk lists.length rws = true) :
    ∃ st', rbcWithWeightsGo st lists rws = Except.ok (some st') ∧ GoodState q st' ∧
      st'.item_weights = accRunsW q (lists.zip rws) st.item_weights := by
  induction lists generalizing st rws with
  | nil => exact ⟨st, rfl, h, rfl⟩
  | cons l ls ih =>
    cases rws with
    | nil => simp [runWeightsOk] at hok
    | cons rw rws' =>
      obtain ⟨hinf, hnan, hrest⟩ := (runWeightsOk_cons_iff ls.length rw rws').1 hok
      obtain ⟨st1, h1, hg1, hm1⟩ := processListFrom_spec q (some rw) l st 0 h
      obtain ⟨st2, h2, hg2, hm2⟩ := ih rws' st1 hg1 hrest
      refine ⟨st2, ?_, hg2, ?_⟩
      · rw [rbcWithWeightsGo, if_neg (by simp [hinf]), if_neg (by simp [hnan]), h1]
        exact h2
      · rw [hm2, hm1, List.zip_cons_cons, accRunsW]

/-- Full characterization of `rbc_with_weights` on a valid persistence, in the
non-erroring case: lists are paired with the consumed run weights. -/
theorem rbcWithWeights_ok {Item : Type} [DecidableEq Item]
    (lists : List (List Item)) (rws : List F) (q : ℚ) (h0 : 0 ≤ q) (h1 : q < 1)
    (hok : runWeightsOk lists.length rws = true) :
    rbcWithWeights lists rws (F.fin q) =
      Except.ok (some (sortEntries (accRunsW q (lists.zip rws) []))) := by
  obtain ⟨st', h', _, hm⟩ :=
    rbcWithWeightsGo_ok q lists rws _ (initState_good Item q) hok
  rw [rbcWithWeights, withPersistence_ok q h0 h1]
  show (rbcWithWeightsGo _ lists rws).bind _ = _
  rw [h']
  simp only [Except.bind, Option.map_some', RbcState.intoResult, hm]
  rfl

/-- Full characterization of `rbc_with_weights` on a valid persistence, in the
erroring case. -/
theorem rbcWithWeights_err {Item : Type} [DecidableEq Item]
    (lists : List (List Item)) (rws : List F) (q : ℚ) (h0 : 0 ≤ q) (h1 : q < 1)
    (hbad : runWeightsOk lists.length rws = false) :
    rbcWithWeights lists rws (F.fin q) = Except.error RbcError.InvalidRunWeights := by
  have h' := rbcWithWeightsGo_err q lists rws _ (initState_good Item q) hbad
  rw [rbcWithWeights, withPersistence_ok q h0 h1]
  show (rbcWithWeightsGo _ lists rws).bind _ = _
  rw [h']
  rfl

/-! ## The accumulator map: keys, finiteness, and scores -/

theorem addWeight_fst_mem {Item : Type} [DecidableEq Item] (m : List (Item × F))
    (x : Item) (w : F) (y : Item) :
    y ∈ (addWeight m x w).map Prod.fst ↔ y ∈ m.map Prod.fst ∨ y = x := by
  induction m with
  | nil => simp [addWeight]
  | cons e m ih =>
    obtain ⟨a, v⟩ := e
    by_cases hx : x = a
    · subst hx
      simp [addWeight]
      tauto
    · simp [addWeight, hx, ih]
      tauto

theorem finVals_addWeight {Item : Type} [DecidableEq Item] (m : List (Item × F))
    (x : Item) (c : ℚ) (hm : finVals m) : finVals (addWeight m x (F.fin c)) := by
  induction m with
  | nil =>
    intro e he
    simp [addWeight] at he
    exact ⟨c, by rw [he]⟩
  | cons hd m ih =>
    obtain ⟨a, v⟩ := hd
    obtain ⟨s, hs⟩ := hm (a, v) (List.mem_cons_self _ _)
    have hm' : finVals m := fun e he => hm e (List.mem_cons_of_mem _ he)
    intro e he
    by_cases hx : x = a
    · subst hx
      simp only [addWeight, if_pos rfl] at he
      rcases List.mem_cons.1 he with h | h
      · exact ⟨s + c, by rw [h]; simp at hs ⊢; rw [hs]; rfl⟩
      · exact hm' e h
    · simp only [addWeight, if_neg hx] at he
      rcases List.mem_cons.1 he with h | h
      · subst h
        exact hm (a, v) (List.mem_cons_self _ _)
      · exact ih hm' e h

theorem scoreQ_addWeight {Item : Type} [DecidableEq Item] (m : List (Item × F))
    (x : Item) (c : ℚ) (y : Item) (hm : finVals m) :
    scoreQ (addWeight m x (F.fin c)) y =
      if y = x then scoreQ m y + c else scoreQ m y := by
  induction m with
  | nil =>
    by_cases h : y = x <;> simp [addWeight, scoreQ, lookupW, h]
  | cons hd m ih =>
    obtain ⟨a, v⟩ := hd
    obtain ⟨s, hs⟩ := hm (a, v) (List.mem_cons_self _ _)
    simp only at hs
    subst hs
    have hm' : finVals m := fun e he => hm e (List.mem_cons_of_mem _ he)
    by_cases hx : x = a
    · subst hx
      by_cases hy : y = x
      · subst hy
        simp [addWeight, scoreQ, lookupW, F.add]
      · simp [addWeight, scoreQ, lookupW, hy]
    · by_cases hy : y = a
      · subst hy
        have hyx : ¬ y = x := fun h => hx (h ▸ rfl)
        simp [addWeight, hx, scoreQ, lookupW, hyx]
      · simp only [addWeight, if_neg hx]
        have : scoreQ ((a, F.fin s) :: addWeight m x (F.fin c)) y =
            scoreQ (addWeight m x (F.fin c)) y := by
          simp [scoreQ, lookupW, hy]
        rw [this, ih hm']
        by_cases hyx : y = x <;> simp [hyx, hx, hy, scoreQ, lookupW]

theorem contribF_fin (q : ℚ) (rank : Nat) (rw : Option F) (hrw : FinOpt rw) :
    contribF q rank rw = F.fin ((1 - q) * q ^ rank * cval rw) := by
  rcases hrw with h | ⟨c, h⟩ <;> subst h
  · simp [contribF, cval]
  · simp [contribF, cval, F.mul]

theorem accListFrom_fst_mem {Item : Type} [DecidableEq Item] (q : ℚ)
    (rw : Option F) (l : List Item) (y : Item) :
    ∀ (rank : Nat) (m : List (Item × F)),
      y ∈ (accListFrom q rw rank l m).map Prod.fst ↔
        y ∈ m.map Prod.fst ∨ y ∈ l := by
  induction l with
  | nil => intro rank m; simp [accListFrom]
  | cons a xs ih =>
    intro rank m
    rw [accListFrom, ih, addWeight_fst_mem]
    simp only [List.mem_cons]
    tauto

theorem finVals_accListFrom {Item : Type} [DecidableEq Item] (q : ℚ)
    (rw : Option F) (hrw : FinOpt rw) (l : List Item) :
    ∀ (rank : Nat) (m : List (Item × F)), finVals m →
      finVals (accListFrom q rw rank l m) := by
  induction l with
  | nil => intro rank m hm; exact hm
  | cons a xs ih =>
    intro rank m hm
    rw [accListFrom, contribF_fin q rank rw hrw]
    exact ih (rank + 1) _ (finVals_addWeight m a _ hm)

theorem scoreQ_accListFrom {Item : Type} [DecidableEq Item] (q : ℚ)
    (rw : Option F) (hrw : FinOpt rw) (l : List Item) (y : Item) :
    ∀ (rank : Nat) (m : List (Item × F)), finVals m →
      scoreQ (accListFrom q rw rank l m) y =
        scoreQ m y + occScoreFrom q (cval rw) y rank l := by
  induction l with
  | nil => intro rank m _; simp [accListFrom, occScoreFrom]
  | cons a xs ih =>
    intro rank m hm
    rw [accListFrom, contribF_fin q rank rw hrw,
      ih (rank + 1) _ (finVals_addWeight m a _ hm),
      scoreQ_addWeight m a _ y hm, occScoreFrom]
    by_cases hy : y = a
    · simp [hy]
      ring
    · simp [hy]

theorem accRuns_fst_mem {Item : Type} [DecidableEq Item] (q : ℚ)
    (lists : List (List Item)) (y : Item) :
    ∀ m : List (Item × F),
      y ∈ (accRuns q lists m).map Prod.fst ↔
        y ∈ m.map Prod.fst ∨ ∃ l ∈ lists, y ∈ l := by
  induction lists with
  | nil => intro m; simp [accRuns]
  | cons l ls ih =>
    intro m
    rw [accRuns, ih, accListFrom_fst_mem]
    simp only [List.mem_cons]
    constructor
    · rintro (⟨h | h⟩ | ⟨w, hw, hy⟩)
      · exact Or.inl h
      · exact Or.inr ⟨l, Or.inl rfl, h⟩
      · exact Or.inr ⟨w, Or.inr hw, hy⟩
    · rintro (h | ⟨w, hw | hw, hy⟩)
      · exact Or.inl (Or.inl h)
      · exact Or.inl (Or.inr (hw ▸ hy))
      · exact Or.inr ⟨w, hw, hy⟩

theorem finVals_accRuns {Item : Type} [DecidableEq Item] (q : ℚ)
    (lists : List (List Item)) :
    ∀ m : List (Item × F), finVals m → finVals (accRuns q lists m) := by
  induction lists with
  | nil => intro m hm; exact hm
  | cons l ls ih =>
    intro m hm
    exact ih _ (finVals_accListFrom q none (Or.inl rfl) l 0 m hm)

theorem scoreQ_accRuns {Item : Type} [DecidableEq Item] (q : ℚ)
    (lists : List (List Item)) (y : Item) :
    ∀ m : List (Item × F), finVals m →
      scoreQ (accRuns q lists m) y =
        scoreQ m y + totalScore q (lists.map fun l => (l, 1)) y := by
  induction lists with
  | nil => intro m _; simp [accRuns, totalScore]
  | cons l ls ih =>
    intro m hm
    rw [accRuns, ih _ (finVals_accListFrom q none (Or.inl rfl) l 0 m hm),
      scoreQ_accListFrom q none (Or.inl rfl) l y 0 m hm]
    simp only [totalScore, List.map_cons, List.sum_cons, cval, occScore]
    ring

theorem accRunsW_fst_mem {Item : Type} [DecidableEq Item] (q : ℚ)
    (pairs : List (List Item × F)) (y : Item) :
    ∀ m : List (Item × F),
      y ∈ (accRunsW q pairs m).map Prod.fst ↔
        y ∈ m.map Prod.fst ∨ ∃ p ∈ pairs, y ∈ p.1 := by
  induction pairs with
  | nil => intro m; simp [accRunsW]
  | cons p ps ih =>
    obtain ⟨l, rw⟩ := p
    intro m
    rw [accRunsW, ih, accListFrom_fst_mem]
    simp only [List.mem_cons]
    constructor
    · rintro (⟨h | h⟩ | ⟨w, hw, hy⟩)
      · exact Or.inl h
      · exact Or.inr ⟨(l, rw), Or.inl rfl, h⟩
      · exact Or.inr ⟨w, Or.inr hw, hy⟩
    · rintro (h | ⟨w, hw | hw, hy⟩)
      · exact Or.inl (Or.inl h)
      · exact Or.inl (Or.inr (by rw [hw] at hy; exact hy))
      · exact Or.inr ⟨w, hw, hy⟩

theorem finVals_accRunsW {Item : Type} [DecidableEq Item] (q : ℚ)
    (pairs : List (List Item × F)) (hp : ∀ p ∈ pairs, ∃ c : ℚ, p.2 = F.fin c) :
    ∀ m : List (Item × F), finVals m → finVals (accRunsW q pairs m) := by
  induction pairs with
  | nil => intro m hm; exact hm
  | cons p ps ih =>
    obtain ⟨l, rw⟩ := p
    intro m hm
    obtain ⟨c, hc⟩ := hp (l, rw) (List.mem_cons_self _ _)
    have hfin : FinOpt (some rw) := Or.inr ⟨c, congrArg some hc⟩
    exact ih (fun e he => hp e (List.mem_cons_of_mem _ he)) _
      (finVals_accListFrom q (some rw) hfin l 0 m hm)

theorem scoreQ_accRunsW {Item : Type} [DecidableEq Item] (q : ℚ)
    (pairs : List (List Item × F)) (hp : ∀ p ∈ pairs, ∃ c : ℚ, p.2 = F.fin c)
    (y : Item) :
    ∀ m : List (Item × F), finVals m →
      scoreQ (accRunsW q pairs m) y =
        scoreQ m y + totalScore q (pairs.map fun p => (p.1, cval (some p.2))) y := by
  induction pairs with
  | nil => intro m _; simp [accRunsW, totalScore]
  | cons p ps ih =>
    obtain ⟨l, rw⟩ := p
    intro m hm
    obtain ⟨c, hc⟩ := hp (l, rw) (List.mem_cons_self _ _)
    have hfin : FinOpt (some rw) := Or.inr ⟨c, congrArg some hc⟩
    rw [accRunsW, ih (fun e he => hp e (List.mem_cons_of_mem _ he)) _
        (finVals_accListFrom q (some rw) hfin l 0 m hm),
      scoreQ_accListFrom q (some rw) hfin l y 0 m hm]
    simp only [totalScore, List.map_cons, List.sum_cons, occScore]
    ring

/-! ## Lookup, membership and the finalization sort -/

theorem scoreQ_cons_ne {Item : Type} [DecidableEq Item] (a : Item) (v : F)
    (m : List (Item × F)) (y : Item) (h : ¬ y = a) :
    scoreQ ((a, v) :: m) y = scoreQ m y := by
  simp [scoreQ, lookupW, h]

theorem lookupW_eq_scoreQ {Item : Type} [DecidableEq Item] (m : List (Item × F))
    (y : Item) (hy : y ∈ m.map Prod.fst) (hm : finVals m) :
    lookupW m y = some (F.fin (scoreQ m y)) := by
  induction m with
  | nil => simp at hy
  | cons hd m ih =>
    obtain ⟨a, v⟩ := hd
    obtain ⟨s, hs⟩ := hm (a, v) (List.mem_cons_self _ _)
    simp only at hs
    subst hs
    by_cases h : y = a
    · simp [lookupW, scoreQ, h]
    · have hy' : y ∈ m.map Prod.fst := by
        rcases List.mem_map.1 hy with ⟨e, he, hfst⟩
        rcases List.mem_cons.1 he with h1 | h1
        · rw [h1] at hfst
          exact absurd hfst.symm h
        · exact List.mem_map.2 ⟨e, h1, hfst⟩
      have hm' : finVals m := fun e he => hm e (List.mem_cons_of_mem _ he)
      rw [scoreQ_cons_ne a _ m y h]
      show (if y = a then some (F.fin s) else lookupW m y) = _
      rw [if_neg h, ih hy' hm']

theorem lookupW_mem {Item : Type} [DecidableEq Item] (m : List (Item × F))
    (y : Item) (v : F) (h : lookupW m y = some v) : (y, v) ∈ m := by
  induction m with
  | nil => simp [lookupW] at h
  | cons hd m ih =>
    obtain ⟨a, w⟩ := hd
    by_cases hy : y = a
    · subst hy
      simp [lookupW] at h
      subst h
      exact List.mem_cons_self _ _
    · show (y, v) ∈ (a, w) :: m
      have : lookupW m y = some v := by
        have := h
        simp only [lookupW, if_neg hy] at this
        exact this
      exact List.mem_cons_of_mem _ (ih this)

theorem sortEntries_perm {Item : Type} (l : List (Item × F)) :
    (sortEntries l).Perm l :=
  List.mergeSort_perm l _

theorem mem_sortEntries {Item : Type} (l : List (Item × F)) (e : Item × F) :
    e ∈ sortEntries l ↔ e ∈ l :=
  (sortEntries_perm l).mem_iff

theorem sortEntries_sorted {Item : Type} (l : List (Item × F)) :
    (sortEntries l).Pairwise (fun a b => F.totalLe b.2 a.2 = true) :=
  List.sorted_mergeSort
    (fun a b c hab hbc => F.totalLe_trans c.2 b.2 a.2 hbc hab)
    (fun a b => F.totalLe_total b.2 a.2) l

theorem F.totalLe_antisymm (a b : F) (h1 : totalLe a b = true)
    (h2 : totalLe b a = true) : a = b := by
  cases a <;> cases b <;> simp_all [totalLe]
  exact le_antisymm h1 h2

/-- Two iteration orders of the same accumulator entries sort to the same
output once all scores are pairwise distinct. -/
theorem sortEntries_eq_of_perm {Item : Type} (l₁ l₂ : List (Item × F))
    (h : l₁.Perm l₂) (hd : l₁.Pairwise fun a b => a.2 ≠ b.2) :
    sortEntries l₁ = sortEntries l₂ := by
  have hd₂ : l₂.Pairwise fun a b => a.2 ≠ b.2 :=
    (List.Perm.pairwise_iff (fun hxy => Ne.symm hxy) h).1 hd
  have hd₁s : (sortEntries l₁).Pairwise fun a b => a.2 ≠ b.2 :=
    (List.Perm.pairwise_iff (fun hxy => Ne.symm hxy) (sortEntries_perm l₁)).2 hd
  have hd₂s : (sortEntries l₂).Pairwise fun a b => a.2 ≠ b.2 :=
    (List.Perm.pairwise_iff (fun hxy => Ne.symm hxy) (sortEntries_perm l₂)).2 hd₂
  have hperm : (sortEntries l₁).Perm (sortEntries l₂) :=
    ((sortEntries_perm l₁).trans h).trans (sortEntries_perm l₂).symm
  have hstrict : ∀ lx : List (Item × F),
      lx.Pairwise (fun a b => F.totalLe b.2 a.2 = true) →
      lx.Pairwise (fun a b => a.2 ≠ b.2) →
      lx.Pairwise (fun a b : Item × F => F.totalLe b.2 a.2 = true ∧ a.2 ≠ b.2) :=
    fun lx hs hdd => hs.and hdd
  haveI : IsAntisymm (Item × F)
      (fun a b : Item × F => F.totalLe b.2 a.2 = true ∧ a.2 ≠ b.2) := by
    constructor
    intro a b hab hba
    exact absurd (F.totalLe_antisymm a.2 b.2 hba.1 hab.1) hab.2
  exact List.eq_of_perm_of_sorted hperm
    (hstrict _ (sortEntries_sorted l₁) hd₁s)
    (hstrict _ (sortEntries_sorted l₂) hd₂s)

/-! ## Remaining helper lemmas -/

theorem update_one {Item : Type} [DecidableEq Item] (st : RbcState Item)
    (rank : Nat) (item : Item) :
    st.update rank item (some (F.fin 1)) = st.update rank item none := by
  rw [RbcState.update, RbcState.update]
  cases extendWeights st.persistence rank st.weights with
  | none => rfl
  | some ws =>
    simp only [Option.bind_eq_bind, Option.some_bind]
    cases ws[rank]? with
    | none => rfl
    | some w => simp [F.mul_one_right]

theorem processListFrom_one {Item : Type} [DecidableEq Item] (l : List Item)
    (st : RbcState Item) (rank : Nat) :
    processListFrom st (some (F.fin 1)) rank l = processListFrom st none rank l := by
  induction l generalizing st rank with
  | nil => rfl
  | cons a xs ih =>
    rw [processListFrom, processListFrom, update_one]
    cases st.update rank a none with
    | none => rfl
    | some st' =>
      simp only [Option.bind_eq_bind, Option.some_bind]
      exact ih st' (rank + 1)

theorem rbcWithWeightsGo_ones {Item : Type} [DecidableEq Item]
    (lists : List (List Item)) (st : RbcState Item) :
    rbcWithWeightsGo st lists (List.replicate lists.length (F.fin 1)) =
      Except.ok (processAll st lists) := by
  induction lists generalizing st with
  | nil => rfl
  | cons l ls ih =>
    rw [List.length_cons, List.replicate_succ, rbcWithWeightsGo,
      if_neg (by decide : ¬ (F.fin 1).isInfinite = true),
      if_neg (by decide : ¬ (F.fin 1).isNan = true)]
    rw [processListFrom_one]
    cases hpl : processListFrom st none 0 l with
    | none => simp [processAll, hpl]
    | some st' => simp [processAll, hpl, ih st']

theorem applyUpdates_isSome {Item : Type} [DecidableEq Item] (q : ℚ)
    (updates : List (Nat × Item × Option F)) (st : RbcState Item)
    (h : GoodState q st) : (applyUpdates st updates).isSome = true := by
  induction updates generalizing st with
  | nil => rfl
  | cons u us ih =>
    obtain ⟨r, x, rw⟩ := u
    obtain ⟨st', h', hg', _⟩ := RbcState.update_spec q st r x rw h
    rw [applyUpdates, h']
    exact ih st' hg'

theorem runWeightsOk_map_fin (rwq : List ℚ) (n : Nat) (h : n ≤ rwq.length) :
    runWeightsOk n (rwq.map F.fin) = true := by
  simp only [runWeightsOk, List.length_map, Bool.and_eq_true, decide_eq_true_eq]
  refine ⟨h, ?_⟩
  rw [List.all_eq_true]
  intro w hw
  rcases List.mem_map.1 (List.mem_of_mem_take hw) with ⟨c, _, rfl⟩
  rfl

theorem zip_map_cval {Item : Type} (lists : List (List Item)) (rwq : List ℚ) :
    (lists.zip (rwq.map F.fin)).map (fun p => (p.1, cval (some p.2))) =
      lists.zip rwq := by
  induction lists generalizing rwq with
  | nil => simp
  | cons l ls ih =>
    cases rwq with
    | nil => simp
    | cons c cs =>
      rw [List.map_cons, List.zip_cons_cons, List.map_cons, ih]
      rfl

theorem zip_snd_fin {Item : Type} (lists : List (List Item)) (rws : List F)
    (hok : runWeightsOk lists.length rws = true) :
    ∀ p ∈ lists.zip rws, ∃ c : ℚ, p.2 = F.fin c := by
  induction lists generalizing rws with
  | nil => simp
  | cons l ls ih =>
    cases rws with
    | nil => simp [runWeightsOk] at hok
    | cons rw rws' =>
      obtain ⟨hinf, hnan, hrest⟩ := (runWeightsOk_cons_iff ls.length rw rws').1 hok
      intro p hp
      rcases List.mem_cons.1 hp with h1 | h1
      · rw [h1]
        exact F.finite_cases rw hinf hnan
      · exact ih rws' hrest p h1

theorem exists_zip_of_exists_mem {Item : Type} (lists : List (List Item))
    (rws : List F) (h : lists.length ≤ rws.length) (y : Item)
    (hy : ∃ l ∈ lists, y ∈ l) : ∃ p ∈ lists.zip rws, y ∈ p.1 := by
  induction lists generalizing rws with
  | nil => simp at hy
  | cons l ls ih =>
    cases rws with
    | nil => simp at h
    | cons rw rws' =>
      rcases hy with ⟨l', hl', hyl⟩
      rcases List.mem_cons.1 hl' with h1 | h1
      · exact ⟨(l, rw), List.mem_cons_self _ _, by rw [h1] at hyl; exact hyl⟩
      · obtain ⟨p, hp, hyp⟩ := ih rws' (by simp at h; omega) ⟨l', h1, hyl⟩
        exact ⟨p, List.mem_cons_of_mem _ hp, hyp⟩

theorem finVals_nil {Item : Type} : finVals ([] : List (Item × F)) :=
  fun e he => absurd he (List.not_mem_nil e)

/-! ## Validation characterizations and small concrete evaluations -/

theorem persistenceOk_false_iff (p : F) :
    persistenceOk p = false ↔
      (F.lt p (F.fin 0) = true ∨ F.le (F.fin 1) p = true ∨ p.isNan = true) := by
  cases p with
  | fin q =>
    simp only [persistenceOk, F.le, F.lt, F.isNan, Bool.and_eq_false_iff,
      decide_eq_false_iff_not, decide_eq_true_eq, not_le, not_lt]
    constructor
    · rintro (h | h)
      · exact Or.inl (by simpa using h)
      · exact Or.inr (Or.inl (by simpa using h))
    · rintro (h | h | h)
      · exact Or.inl (by simpa using h)
      · exact Or.inr (by simpa using h)
      · cases h
  | posInf => simp [persistenceOk, F.le, F.lt, F.isNan]
  | negInf => simp [persistenceOk, F.le, F.lt, F.isNan]
  | nan => simp [persistenceOk, F.le, F.lt, F.isNan]

theorem rbc_IP_iff {Item : Type} [DecidableEq Item] (lists : List (List Item))
    (p : F) :
    rbc lists p = Except.error RbcError.InvalidPersistance ↔
      persistenceOk p = false := by
  constructor
  · intro h
    by_contra hc
    obtain ⟨q, rfl, h0, h1⟩ := (persistenceOk_iff p).1 (by simpa using hc)
    rw [rbc_eq lists q h0 h1] at h
    cases h
  · intro h
    rw [rbc, withPersistence_err p h]
    rfl

theorem rbcWithWeights_IP_iff {Item : Type} [DecidableEq Item]
    (lists : List (List Item)) (rws : List F) (p : F) :
    rbcWithWeights lists rws p = Except.error RbcError.InvalidPersistance ↔
      persistenceOk p = false := by
  constructor
  · intro h
    by_contra hc
    obtain ⟨q, rfl, h0, h1⟩ := (persistenceOk_iff p).1 (by simpa using hc)
    by_cases hr : runWeightsOk lists.length rws = true
    · rw [rbcWithWeights_ok lists rws q h0 h1 hr] at h
      cases h
    · rw [rbcWithWeights_err lists rws q h0 h1 (by simpa using hr)] at h
      simp at h
  · intro h
    rw [rbcWithWeights, withPersistence_err p h]
    rfl

/-- The effective schedule weight at every rank is the geometric value. -/
theorem weightAt_eq (q : ℚ) (r : Nat) :
    weightAt (F.fin q) r = some (F.fin ((1 - q) * q ^ r)) := by
  obtain ⟨ws', heq, hlt, _, hg⟩ := extendWeights_spec q r (initWeights (F.fin q))
    (initWeights_ne_nil _) (fun i hi => by
      rw [initWeights_length] at hi
      exact initWeights_getElem? q i hi)
  rw [weightAt, heq]
  exact hg r hlt

theorem sortEntries_nil {Item : Type} : sortEntries ([] : List (Item × F)) = [] := by
  simp [sortEntries]

theorem sortEntries_singleton {Item : Type} (e : Item × F) :
    sortEntries [e] = [e] := by
  simp [sortEntries]

theorem contribF_none_zero : contribF 0 0 none = F.fin 1 := by
  norm_num [contribF]

theorem accRuns_pair_eval :
    accRuns 0 [[(0 : ℕ)], [1]] [] = [((0 : ℕ), F.fin 1), (1, F.fin 1)] := by
  simp [accRuns, accListFrom, addWeight, contribF_none_zero]

theorem rbc_single_eval :
    rbc [[(0 : ℕ)]] (F.fin 0) = Except.ok (some [((0 : ℕ), F.fin 1)]) := by
  rw [rbc_eq [[0]] 0 le_rfl (by norm_num)]
  simp [accRuns, accListFrom, addWeight, contribF_none_zero, sortEntries_singleton]

theorem rbc_pair_eval :
    rbc [[(0 : ℕ)], [1]] (F.fin 0) =
      Except.ok (some (sortEntries [((0 : ℕ), F.fin 1), (1, F.fin 1)])) := by
  rw [rbc_eq [[0], [1]] 0 le_rfl (by norm_num), accRuns_pair_eval]

theorem contribF_one_zero : contribF 0 0 (some (F.fin 1)) = F.fin 1 := by
  norm_num [contribF, F.mul]

theorem contribF_negone_zero : contribF 0 0 (some (F.fin (-1))) = F.fin (-1) := by
  norm_num [contribF, F.mul]

theorem rbcWithWeights_extra_eval :
    rbcWithWeights [[(0 : ℕ)]] [F.fin 1, F.fin 2] (F.fin 0) =
      Except.ok (some [((0 : ℕ), F.fin 1)]) := by
  rw [rbcWithWeights_ok [[0]] [F.fin 1, F.fin 2] 0 le_rfl (by norm_num) (by rfl)]
  simp [accRunsW, accListFrom, addWeight, contribF_one_zero, sortEntries_singleton]

theorem rbcWithWeights_neg_eval :
    rbcWithWeights [[(0 : ℕ)]] [F.fin (-1)] (F.fin 0) =
      Except.ok (some [((0 : ℕ), F.fin (-1))]) := by
  rw [rbcWithWeights_ok [[0]] [F.fin (-1)] 0 le_rfl (by norm_num) (by rfl)]
  simp [accRunsW, accListFrom, addWeight, contribF_negone_zero, sortEntries_singleton]

theorem sortEntries_of_sorted {Item : Type} (l : List (Item × F))
    (h : l.Pairwise fun a b => F.totalLe b.2 a.2 = true) : sortEntries l = l :=
  List.mergeSort_of_sorted h

/-! ## The claims -/

/-- C1: for every valid persistence `p = q` in `[0, 1)` and every collection of
ranked lists, the final score of every occurring item equals the sum, over
every occurrence of the item at zero-based rank `r` in any list, of
`(1-q) * q^r` times that list's run weight (`1` for the unweighted `rbc`);
duplicate occurrences, including repeats inside one list, accumulate
additively (the spec-side formula `totalScore` sums over all positions with
no deduplication). -/
theorem c1_scores {Item : Type} [DecidableEq Item] (lists : List (List Item))
    (rwq : List ℚ) (q : ℚ) (x : Item) (h0 : 0 ≤ q) (h1 : q < 1)
    (hlen : rwq.length = lists.length) :
    (∃ res, rbc lists (F.fin q) = Except.ok (some res) ∧
      ((∃ l ∈ lists, x ∈ l) →
        (x, F.fin (totalScore q (lists.map fun l => (l, 1)) x)) ∈ res)) ∧
    (∃ res, rbcWithWeights lists (rwq.map F.fin) (F.fin q) = Except.ok (some res) ∧
      ((∃ l ∈ lists, x ∈ l) →
        (x, F.fin (totalScore q (lists.zip rwq) x)) ∈ res)) := by
  constructor
  · refine ⟨_, rbc_eq lists q h0 h1, fun hx => ?_⟩
    have hkeys : x ∈ (accRuns q lists []).map Prod.fst :=
      (accRuns_fst_mem q lists x []).2 (Or.inr hx)
    have hfin := finVals_accRuns q lists [] finVals_nil
    have hlook := lookupW_eq_scoreQ _ x hkeys hfin
    have hscore := scoreQ_accRuns q lists x [] finVals_nil
    have hzero : scoreQ ([] : List (Item × F)) x = 0 := rfl
    rw [hscore, hzero, zero_add] at hlook
    exact (mem_sortEntries _ _).2 (lookupW_mem _ x _ hlook)
  · have hok : runWeightsOk lists.length (rwq.map F.fin) = true :=
      runWeightsOk_map_fin rwq lists.length (by omega)
    refine ⟨_, rbcWithWeights_ok lists (rwq.map F.fin) q h0 h1 hok, fun hx => ?_⟩
    have hp := zip_snd_fin lists (rwq.map F.fin) hok
    have hkeys : x ∈ (accRunsW q (lists.zip (rwq.map F.fin)) []).map Prod.fst :=
      (accRunsW_fst_mem q _ x []).2
        (Or.inr (exists_zip_of_exists_mem lists _ (by simp; omega) x hx))
    have hfin := finVals_accRunsW q _ hp [] finVals_nil
    have hlook := lookupW_eq_scoreQ _ x hkeys hfin
    have hscore := scoreQ_accRunsW q _ hp x [] finVals_nil
    have hzero : scoreQ ([] : List (Item × F)) x = 0 := rfl
    rw [hscore, hzero, zero_add, zip_map_cval] at hlook
    exact (mem_sortEntries _ _).2 (lookupW_mem _ x _ hlook)

/-- Witness for C1 at a concrete input with a duplicate item. -/
theorem c1_scores_witness :
    (∃ res, rbc [[(0 : ℕ), 1], [0]] (F.fin (1/2)) = Except.ok (some res) ∧
      ((∃ l ∈ [[(0 : ℕ), 1], [0]], (0 : ℕ) ∈ l) →
        ((0 : ℕ), F.fin (totalScore (1/2)
          ([[(0 : ℕ), 1], [0]].map fun l => (l, 1)) 0)) ∈ res)) ∧
    (∃ res, rbcWithWeights [[(0 : ℕ), 1], [0]] ([1, 2].map F.fin) (F.fin (1/2)) =
        Except.ok (some res) ∧
      ((∃ l ∈ [[(0 : ℕ), 1], [0]], (0 : ℕ) ∈ l) →
        ((0 : ℕ), F.fin (totalScore (1/2) ([[(0 : ℕ), 1], [0]].zip [1, 2]) 0)) ∈ res)) :=
  c1_scores [[0, 1], [0]] [1, 2] (1/2) 0 (by norm_num) (by norm_num) rfl

/-- C2 (counterexample to the claimed iff, and the crate's own documentation):
with more run weights than lists (`2` weights, `1` list) `rbc_with_weights`
does not return `InvalidRunWeights` — the leftover weight is silently
ignored and the call succeeds; the post-loop `ranked_list_iter.next()` check
is dead code because the `for` loop already drained the iterator. -/
theorem c2_code_bug :
    [[(0 : ℕ)]].length ≠ [F.fin 1, F.fin 2].length ∧
    rbcWithWeights [[(0 : ℕ)]] [F.fin 1, F.fin 2] (F.fin 0) =
      Except.ok (some [((0 : ℕ), F.fin 1)]) :=
  ⟨by decide, rbcWithWeights_extra_eval⟩

/-- C3: both entry points return `InvalidPersistance` exactly when the IEEE
comparisons classify `p` as `p < 0`, `p ≥ 1`, or NaN; in particular `p = 0`
is accepted and `p = 1` is rejected. -/
theorem c3_persistence_validation {Item : Type} [DecidableEq Item]
    (lists : List (List Item)) (rws : List F) (p : F) :
    ((rbc lists p = Except.error RbcError.InvalidPersistance) ↔
      (F.lt p (F.fin 0) = true ∨ F.le (F.fin 1) p = true ∨ p.isNan = true)) ∧
    ((rbcWithWeights lists rws p = Except.error RbcError.InvalidPersistance) ↔
      (F.lt p (F.fin 0) = true ∨ F.le (F.fin 1) p = true ∨ p.isNan = true)) ∧
    (∃ r, rbc lists (F.fin 0) = Except.ok r) ∧
    rbc lists (F.fin 1) = Except.error RbcError.InvalidPersistance := by
  refine ⟨(rbc_IP_iff lists p).trans (persistenceOk_false_iff p),
    (rbcWithWeights_IP_iff lists rws p).trans (persistenceOk_false_iff p),
    ⟨_, rbc_eq lists 0 le_rfl (by norm_num)⟩,
    (rbc_IP_iff lists (F.fin 1)).2 (by decide)⟩

/-- C4: every successful fusion (either entry point) returns a sequence
sorted in non-increasing score order under the `total_cmp` total order, and
no returned score is NaN. -/
theorem c4_sorted_output {Item : Type} [DecidableEq Item]
    (lists : List (List Item)) (rws : List F) (p : F) (res : List (Item × F))
    (h : rbc lists p = Except.ok (some res) ∨
      rbcWithWeights lists rws p = Except.ok (some res)) :
    res.Pairwise (fun a b => F.totalLe b.2 a.2 = true) ∧
    ∀ e ∈ res, e.2.isNan = false := by
  have hval : ∃ q, p = F.fin q ∧ 0 ≤ q ∧ q < 1 := by
    rcases Bool.eq_false_or_eq_true (persistenceOk p) with hok | hok
    · exact (persistenceOk_iff p).1 hok
    · exfalso
      rcases h with h | h
      · rw [(rbc_IP_iff lists p).2 hok] at h
        cases h
      · rw [(rbcWithWeights_IP_iff lists rws p).2 hok] at h
        cases h
  obtain ⟨q, rfl, h0, h1⟩ := hval
  rcases h with h | h
  · rw [rbc_eq lists q h0 h1] at h
    have hres : res = sortEntries (accRuns q lists []) := by
      simp only [Except.ok.injEq, Option.some.injEq] at h
      exact h.symm
    subst hres
    refine ⟨sortEntries_sorted _, fun e he => ?_⟩
    obtain ⟨c, hc⟩ :=
      finVals_accRuns q lists [] finVals_nil e ((mem_sortEntries _ _).1 he)
    rw [hc]
    rfl
  · by_cases hr : runWeightsOk lists.length rws = true
    · rw [rbcWithWeights_ok lists rws q h0 h1 hr] at h
      have hres : res = sortEntries (accRunsW q (lists.zip rws) []) := by
        simp only [Except.ok.injEq, Option.some.injEq] at h
        exact h.symm
      subst hres
      refine ⟨sortEntries_sorted _, fun e he => ?_⟩
      obtain ⟨c, hc⟩ := finVals_accRunsW q _ (zip_snd_fin lists rws hr) []
        finVals_nil e ((mem_sortEntries _ _).1 he)
      rw [hc]
      rfl
    · rw [rbcWithWeights_err lists rws q h0 h1 (by simpa using hr)] at h
      cases h

/-- Witness for C4 at a concrete successful fusion. -/
theorem c4_sorted_output_witness :
    ([((0 : ℕ), F.fin 1)].Pairwise (fun a b => F.totalLe b.2 a.2 = true) ∧
      ∀ e ∈ [((0 : ℕ), F.fin 1)], e.2.isNan = false) :=
  c4_sorted_output [[0]] [] (F.fin 0) [((0 : ℕ), F.fin 1)] (Or.inl rbc_single_eval)

/-- C5: for valid persistence the fused result contains exactly the distinct
items occurring in at least one input list, and an empty collection of lists
yields an empty result (both entry points). -/
theorem c5_item_set {Item : Type} [DecidableEq Item] (lists : List (List Item))
    (q : ℚ) (h0 : 0 ≤ q) (h1 : q < 1) :
    (∃ res, rbc lists (F.fin q) = Except.ok (some res) ∧
      (∀ x, x ∈ res.map Prod.fst ↔ ∃ l ∈ lists, x ∈ l) ∧
      (lists = [] → res = [])) ∧
    rbc ([] : List (List Item)) (F.fin q) = Except.ok (some []) ∧
    rbcWithWeights ([] : List (List Item)) [] (F.fin q) = Except.ok (some []) := by
  have hempty : rbc ([] : List (List Item)) (F.fin q) = Except.ok (some []) := by
    rw [rbc_eq [] q h0 h1]
    rw [show accRuns q ([] : List (List Item)) [] = [] from rfl, sortEntries_nil]
  refine ⟨⟨_, rbc_eq lists q h0 h1, fun x => ?_, fun hl => ?_⟩, hempty, ?_⟩
  · rw [((sortEntries_perm (accRuns q lists [])).map Prod.fst).mem_iff,
      accRuns_fst_mem q lists x []]
    simp
  · subst hl
    rw [show accRuns q ([] : List (List Item)) [] = [] from rfl, sortEntries_nil]
  · rw [rbcWithWeights_ok [] [] q h0 h1 (runWeightsOk_zero [])]
    rw [show accRunsW q (([] : List (List Item)).zip []) [] = [] from rfl,
      sortEntries_nil]

/-- Witness for C5 at a concrete input. -/
theorem c5_item_set_witness :
    (∃ res, rbc [[(0 : ℕ), 1], [2]] (F.fin 0) = Except.ok (some res) ∧
      (∀ x, x ∈ res.map Prod.fst ↔ ∃ l ∈ [[(0 : ℕ), 1], [2]], x ∈ l) ∧
      ([[(0 : ℕ), 1], [2]] = ([] : List (List ℕ)) → res = [])) ∧
    rbc ([] : List (List ℕ)) (F.fin 0) = Except.ok (some []) ∧
    rbcWithWeights ([] : List (List ℕ)) [] (F.fin 0) = Except.ok (some []) :=
  c5_item_set [[0, 1], [2]] 0 le_rfl (by norm_num)

/-- C6 (amended): for valid `q` the schedule weight at every rank is the
geometric value `(1-q) * q^r`; every weight is non-negative; `weight 0 = 1-q`;
the geometric recurrence `weight (r+1) = weight r * q` holds; for `q > 0` the
weights are strictly decreasing; and for `q = 0` the weight at rank 0 is `1`
while every deeper weight is `0` (so the weights are *not* all equal at
`q = 0` — see the counterexample). -/
theorem c6_schedule (q : ℚ) (h0 : 0 ≤ q) (h1 : q < 1) :
    (∀ r, weightAt (F.fin q) r = some (F.fin ((1 - q) * q ^ r))) ∧
    (∀ r, 0 ≤ (1 - q) * q ^ r) ∧
    (1 - q) * q ^ 0 = 1 - q ∧
    (∀ r, (1 - q) * q ^ (r + 1) = ((1 - q) * q ^ r) * q) ∧
    (0 < q → ∀ r, (1 - q) * q ^ (r + 1) < (1 - q) * q ^ r) ∧
    (q = 0 → (1 - q) * q ^ 0 = 1 ∧ ∀ r, (1 - q) * q ^ (r + 1) = 0) := by
  refine ⟨fun r => weightAt_eq q r,
    fun r => mul_nonneg (by linarith) (pow_nonneg h0 r),
    by ring, fun r => by ring, fun hq r => ?_, fun hq => ?_⟩
  · have ha : (0 : ℚ) < q ^ r := pow_pos hq r
    have hb : (0 : ℚ) < 1 - q := by linarith
    calc (1 - q) * q ^ (r + 1) = ((1 - q) * q ^ r) * q := by ring
      _ < ((1 - q) * q ^ r) * 1 := by
          have := mul_lt_mul_of_pos_left h1 (mul_pos hb ha)
          simpa using this
      _ = (1 - q) * q ^ r := by ring
  · subst hq
    constructor
    · norm_num
    · intro r
      simp [pow_succ]

/-- Witness for C6 at `q = 1/2`. -/
theorem c6_schedule_witness :
    (∀ r, weightAt (F.fin (1/2)) r = some (F.fin ((1 - 1/2) * (1/2 : ℚ) ^ r))) ∧
    (∀ r, 0 ≤ (1 - 1/2) * (1/2 : ℚ) ^ r) ∧
    (1 - 1/2) * (1/2 : ℚ) ^ 0 = 1 - 1/2 ∧
    (∀ r, (1 - 1/2) * (1/2 : ℚ) ^ (r + 1) = ((1 - 1/2) * (1/2 : ℚ) ^ r) * (1/2)) ∧
    (0 < (1/2 : ℚ) → ∀ r, (1 - 1/2) * (1/2 : ℚ) ^ (r + 1) < (1 - 1/2) * (1/2 : ℚ) ^ r) ∧
    ((1/2 : ℚ) = 0 → (1 - 1/2) * (1/2 : ℚ) ^ 0 = 1 ∧
      ∀ r, (1 - 1/2) * (1/2 : ℚ) ^ (r + 1) = 0) :=
  c6_schedule (1/2) (by norm_num) (by norm_num)

/-- C6 counterexample: at `p = 0` the schedule weights are not all equal —
the weight at rank 0 is `1` and the weight at rank 1 is `0`. -/
theorem c6_schedule_counterexample :
    weightAt (F.fin 0) 0 = some (F.fin 1) ∧
    weightAt (F.fin 0) 1 = some (F.fin 0) ∧
    F.fin 1 ≠ F.fin 0 := by
  refine ⟨?_, ?_, by decide⟩
  · rw [weightAt_eq 0 0]
    norm_num
  · rw [weightAt_eq 0 1]
    norm_num

/-- In the canonical insertion-order model (where both pipelines traverse the
accumulator in the same, input-determined order) `rbc_with_weights` with run
weight `1.0` per list is literally `rbc`: the two calls accumulate the same
item-to-score map with bit-identical scores, since `w * 1.0 = w` holds for
every value including the IEEE specials.  This expresses equality of the
accumulated *map contents*; the relative order of equal-score items in each
real call still follows that call's own `HashMap` iteration order. -/
theorem rbcWithWeights_ones_eq_rbc {Item : Type} [DecidableEq Item]
    (lists : List (List Item)) (p : F) :
    rbcWithWeights lists (List.replicate lists.length (F.fin 1)) p =
      rbc lists p := by
  unfold rbcWithWeights rbc
  cases withPersistence Item p with
  | error e => rfl
  | ok st =>
    show (rbcWithWeightsGo st lists _).bind _ = _
    rw [rbcWithWeightsGo_ones]
    rfl

/-- C7 counterexample: with unit run weights both entry points accumulate the
same two entries with equal score `1` (input `[[0],[1]]`, `p = 0`); each real
call then stable-sorts its *own* randomly seeded `HashMap`'s iteration order
of those entries, and two legitimate orders yield different output
sequences — so the two calls are not guaranteed to produce the same result
sequence, refuting the claim as stated. -/
theorem c7_unit_weights_counterexample :
    rbcWithWeights [[(0 : ℕ)], [1]] [F.fin 1, F.fin 1] (F.fin 0) =
      Except.ok (some (sortEntries [((0 : ℕ), F.fin 1), (1, F.fin 1)])) ∧
    rbc [[(0 : ℕ)], [1]] (F.fin 0) =
      Except.ok (some (sortEntries [((0 : ℕ), F.fin 1), (1, F.fin 1)])) ∧
    List.Perm [((0 : ℕ), F.fin 1), (1, F.fin 1)]
      [((1 : ℕ), F.fin 1), ((0 : ℕ), F.fin 1)] ∧
    sortEntries [((1 : ℕ), F.fin 1), ((0 : ℕ), F.fin 1)] ≠
      sortEntries [((0 : ℕ), F.fin 1), (1, F.fin 1)] := by
  refine ⟨?_, rbc_pair_eval, List.Perm.swap _ _ _, ?_⟩
  · have h := rbcWithWeights_ones_eq_rbc [[(0 : ℕ)], [1]] (F.fin 0)
    rw [show List.replicate ([[(0 : ℕ)], [1]].length) (F.fin 1) =
      [F.fin 1, F.fin 1] from rfl] at h
    exact h.trans rbc_pair_eval
  · rw [sortEntries_of_sorted _ (by decide), sortEntries_of_sorted _ (by decide)]
    decide

/-- C7 (amended): with run weight `1.0` for every list, `rbc_with_weights`
accumulates exactly the same item-to-score map as `rbc` (bit-identical
scores for every item, since `w * 1.0 = w` bit-identically), and the two
output sequences agree up to the order of equal-score items: for any two
iteration orders of the common accumulated entries (one per call) the sorted
outputs are permutations of each other, and identical whenever all scores
are pairwise distinct. -/
theorem c7_unit_weights_upto_ties {Item : Type} [DecidableEq Item]
    (lists : List (List Item)) (q : ℚ) (h0 : 0 ≤ q) (h1 : q < 1)
    (l₁ l₂ : List (Item × F))
    (hl₁ : l₁.Perm (accRuns q lists [])) (hl₂ : l₂.Perm (accRuns q lists [])) :
    rbcWithWeights lists (List.replicate lists.length (F.fin 1)) (F.fin q) =
      Except.ok (some (sortEntries (accRuns q lists []))) ∧
    rbc lists (F.fin q) = Except.ok (some (sortEntries (accRuns q lists []))) ∧
    (sortEntries l₁).Perm (sortEntries l₂) ∧
    (((accRuns q lists []).Pairwise fun a b => a.2 ≠ b.2) →
      sortEntries l₁ = sortEntries l₂) := by
  have hrbc := rbc_eq lists q h0 h1
  refine ⟨(rbcWithWeights_ones_eq_rbc lists (F.fin q)).trans hrbc, hrbc,
    ((sortEntries_perm l₁).trans (hl₁.trans hl₂.symm)).trans
      (sortEntries_perm l₂).symm,
    fun hd => sortEntries_eq_of_perm l₁ l₂ (hl₁.trans hl₂.symm) ?_⟩
  exact (List.Perm.pairwise_iff (fun hxy => Ne.symm hxy) hl₁).2 hd

/-- Witness for C7 (amended) at the tied-score input `[[0],[1]]`, `p = 0`,
with the two swapped iteration orders. -/
theorem c7_unit_weights_upto_ties_witness :
    rbcWithWeights [[(0 : ℕ)], [1]]
        (List.replicate [[(0 : ℕ)], [1]].length (F.fin 1)) (F.fin 0) =
      Except.ok (some (sortEntries (accRuns 0 [[(0 : ℕ)], [1]] []))) ∧
    rbc [[(0 : ℕ)], [1]] (F.fin 0) =
      Except.ok (some (sortEntries (accRuns 0 [[(0 : ℕ)], [1]] []))) ∧
    (sortEntries [((0 : ℕ), F.fin 1), (1, F.fin 1)]).Perm
      (sortEntries [((1 : ℕ), F.fin 1), ((0 : ℕ), F.fin 1)]) ∧
    (((accRuns 0 [[(0 : ℕ)], [1]] []).Pairwise fun a b => a.2 ≠ b.2) →
      sortEntries [((0 : ℕ), F.fin 1), (1, F.fin 1)] =
        sortEntries [((1 : ℕ), F.fin 1), ((0 : ℕ), F.fin 1)]) :=
  c7_unit_weights_upto_ties [[0], [1]] 0 le_rfl (by norm_num)
    [((0 : ℕ), F.fin 1), (1, F.fin 1)] [((1 : ℕ), F.fin 1), ((0 : ℕ), F.fin 1)]
    (by rw [accRuns_pair_eval]) (by rw [accRuns_pair_eval]; exact List.Perm.swap _ _ _)

/-- C8 counterexample: the accumulated map for `rbc [[0],[1]]` with `p = 0`
holds two entries with equal score `1`; two legitimate `HashMap` iteration
orders of those same entries (which the randomly seeded `std::collections`
`HashMap` does not fix as a function of the input) produce different output
sequences from the stable finalization sort, so the relative order of
equal-score items is not a deterministic function of the input. -/
theorem c8_determinism_counterexample :
    rbc [[(0 : ℕ)], [1]] (F.fin 0) =
      Except.ok (some (sortEntries [((0 : ℕ), F.fin 1), (1, F.fin 1)])) ∧
    List.Perm [((0 : ℕ), F.fin 1), (1, F.fin 1)]
      [((1 : ℕ), F.fin 1), ((0 : ℕ), F.fin 1)] ∧
    sortEntries [((0 : ℕ), F.fin 1), (1, F.fin 1)] ≠
      sortEntries [((1 : ℕ), F.fin 1), ((0 : ℕ), F.fin 1)] := by
  refine ⟨rbc_pair_eval, ?_, ?_⟩
  · exact List.Perm.swap _ _ _
  · rw [sortEntries_of_sorted _ (by decide), sortEntries_of_sorted _ (by decide)]
    decide

/-- C8 (amended): the finalization sort maps any two iteration orders of the
same accumulator entries to outputs that are permutations of each other (the
multiset of `(item, score)` pairs is a deterministic function of the input),
and when all scores are pairwise distinct the two outputs are identical; only
the relative order of equal-score items depends on the unspecified `HashMap`
iteration order. -/
theorem c8_determinism {Item : Type} (l₁ l₂ : List (Item × F))
    (h : l₁.Perm l₂) :
    (sortEntries l₁).Perm (sortEntries l₂) ∧
    ((l₁.Pairwise fun a b => a.2 ≠ b.2) → sortEntries l₁ = sortEntries l₂) :=
  ⟨((sortEntries_perm l₁).trans h).trans (sortEntries_perm l₂).symm,
    fun hd => sortEntries_eq_of_perm l₁ l₂ h hd⟩

/-- Witness for C8 (amended) at concrete entry lists with distinct scores. -/
theorem c8_determinism_witness :
    (sortEntries [((0 : ℕ), F.fin 2), (1, F.fin 1)]).Perm
      (sortEntries [((1 : ℕ), F.fin 1), ((0 : ℕ), F.fin 2)]) ∧
    (([((0 : ℕ), F.fin 2), (1, F.fin 1)].Pairwise fun a b => a.2 ≠ b.2) →
      sortEntries [((0 : ℕ), F.fin 2), (1, F.fin 1)] =
        sortEntries [((1 : ℕ), F.fin 1), ((0 : ℕ), F.fin 2)]) :=
  c8_determinism [((0 : ℕ), F.fin 2), (1, F.fin 1)]
    [((1 : ℕ), F.fin 1), ((0 : ℕ), F.fin 2)] (List.Perm.swap _ _ _)

/-- C9: once the persistence value passes validation, no panic is reachable:
`with_persistence` succeeds, every sequence of `update` calls (any ranks,
items and optional run weights) succeeds — in particular the weight vector
is nonempty whenever it is extended, so the internal `expect` calls never
fire — and neither entry point ever reaches the panic outcome (`ok none`);
`into_result` is a total function by construction. -/
theorem c9_no_panic {Item : Type} [DecidableEq Item] (p : F)
    (hp : persistenceOk p = true) (updates : List (Nat × Item × Option F))
    (lists : List (List Item)) (rws : List F) :
    (∃ st : RbcState Item, withPersistence Item p = Except.ok st ∧
      (applyUpdates st updates).isSome = true) ∧
    rbc lists p ≠ Except.ok none ∧
    rbcWithWeights lists rws p ≠ Except.ok none := by
  obtain ⟨q, rfl, h0, h1⟩ := (persistenceOk_iff p).1 hp
  refine ⟨⟨_, withPersistence_ok q h0 h1,
    applyUpdates_isSome q updates _ (initState_good Item q)⟩, ?_, ?_⟩
  · rw [rbc_eq lists q h0 h1]
    simp
  · by_cases hr : runWeightsOk lists.length rws = true
    · rw [rbcWithWeights_ok lists rws q h0 h1 hr]
      simp
    · rw [rbcWithWeights_err lists rws q h0 h1 (by simpa using hr)]
      simp

/-- Witness for C9 at `p = 0` with a concrete update sequence. -/
theorem c9_no_panic_witness :
    (∃ st : RbcState ℕ, withPersistence ℕ (F.fin 0) = Except.ok st ∧
      (applyUpdates st [(3, 5, some (F.fin 2)), (0, 7, none)]).isSome = true) ∧
    rbc [[(1 : ℕ), 2]] (F.fin 0) ≠ Except.ok none ∧
    rbcWithWeights [[(1 : ℕ), 2]] [F.fin 1] (F.fin 0) ≠ Except.ok none :=
  c9_no_panic (F.fin 0) (by decide) [(3, 5, some (F.fin 2)), (0, 7, none)]
    [[1, 2]] [F.fin 1]

/-- C10: negative finite run weights pass validation (only infinite and NaN
weights are rejected), the fusion succeeds, and a negative run weight yields
a negative item score: with one list `[0]`, run weight `-1` and `p = 0` the
item's score is `-1 < 0`. -/
theorem c10_negative_weights {Item : Type} [DecidableEq Item]
    (lists : List (List Item)) (rwq : List ℚ) (q : ℚ)
    (h0 : 0 ≤ q) (h1 : q < 1) (hlen : rwq.length = lists.length) :
    (∃ res, rbcWithWeights lists (rwq.map F.fin) (F.fin q) =
      Except.ok (some res)) ∧
    rbcWithWeights [[(0 : ℕ)]] [F.fin (-1)] (F.fin 0) =
      Except.ok (some [((0 : ℕ), F.fin (-1))]) ∧
    (-1 : ℚ) < 0 :=
  ⟨⟨_, rbcWithWeights_ok lists (rwq.map F.fin) q h0 h1
      (runWeightsOk_map_fin rwq lists.length (by omega))⟩,
    rbcWithWeights_neg_eval, by norm_num⟩

/-- Witness for C10 with a negative run weight. -/
theorem c10_negative_weights_witness :
    (∃ res, rbcWithWeights [[(5 : ℕ)]] ([-2].map F.fin) (F.fin 0) =
      Except.ok (some res)) ∧
    rbcWithWeights [[(0 : ℕ)]] [F.fin (-1)] (F.fin 0) =
      Except.ok (some [((0 : ℕ), F.fin (-1))]) ∧
    (-1 : ℚ) < 0 :=
  c10_negative_weights [[5]] [-2] 0 le_rfl (by norm_num) rfl
